import Mathlib

/-!
# Verification of the memory-search indexing/search engine

Shallow embedding of `scripts/memory-search.py` (the core indexing and
search engine of the repository) and proofs about it.

Modelling conventions:
* Python strings are modelled as `List Char` (`Str`); `str.split()`,
  `str.strip()`, `str.lower()`, `" ".join(...)` and the substring test
  `a in b` are modelled directly on character lists.
* Python floats appearing as exact small constants are modelled as `ℚ`.
  `int(x / 1.3)` for a nonnegative integer `x` is modelled as
  `10 * x / 13` in natural-number division: float division by 1.3 is
  correctly rounded and `10*x/13` either is an integer (then the float
  quotient rounds to exactly that integer) or has fractional part at
  least `1/13`, far larger than the rounding error at these magnitudes,
  so the two agree for every realistic argument.
* The embedding model (`sentence-transformers`, an external service) is
  a parameter `embed`; cosine similarity over floats is abstracted as a
  parameter `sim` where only the structure of search results matters.
* Each call of `embed_texts` is recorded in a trace (the list of batches
  handed to the embedder), so "zero embedding calls" is `trace = []`.
* SQLite tables are modelled as lists of records in insertion order;
  `DELETE ... WHERE` is `List.filter`, `INSERT` appends,
  `INSERT OR REPLACE` on the primary key removes the old row and appends.
* The `while` loop of `chunk_text` is modelled with explicit fuel
  (`chunkLoopF`), since for a non-positive step it does not terminate;
  `ChunkTerminates` states that some amount of fuel suffices.
-/

/-- A Python string, as its sequence of characters. -/
abbrev Str := List Char

/-- One step of `str.split()`: accumulate the current word (in reverse)
while scanning the text.  Whitespace ends the current word; consecutive
whitespace produces no empty words, exactly as Python `str.split()`. -/
def splitWordsAux : List Char → List Char → List Str
  | [], cur => if cur.isEmpty then [] else [cur.reverse]
  | c :: rest, cur =>
    if c.isWhitespace then
      if cur.isEmpty then splitWordsAux rest []
      else cur.reverse :: splitWordsAux rest []
    else splitWordsAux rest (c :: cur)

/-- Python `text.split()`: the whitespace-separated words of `text`. -/
def splitWords (s : Str) : List Str := splitWordsAux s []

/-- Python `" ".join(words)`. -/
def joinSpace (ws : List Str) : Str := (List.intersperse [' '] ws).flatten

/-- Python `s.lower()` (character-wise). -/
def strLower (s : Str) : Str := s.map Char.toLower

/-- Python `s.strip()`: remove leading and trailing whitespace. -/
def pyStrip (s : Str) : Str :=
  ((s.dropWhile Char.isWhitespace).reverse.dropWhile Char.isWhitespace).reverse

/-- Python substring test `t in s` for strings. -/
def containsSub (t : Str) : Str → Bool
  | [] => t.isEmpty
  | c :: rest => t.isPrefixOf (c :: rest) || containsSub t rest

/-- `CHUNK_SIZE = 400` (approximate tokens). -/
def CHUNK_SIZE : Nat := 400

/-- `CHUNK_OVERLAP = 80` (approximate tokens). -/
def CHUNK_OVERLAP : Nat := 80

/-- `words_per_chunk = int(chunk_size / 1.3)` (see the header on why
nat division by 13 is the faithful model of the float computation). -/
def wordsPerChunk (size : Nat) : Nat := 10 * size / 13

/-- `words_overlap = int(overlap / 1.3)`. -/
def wordsOverlap (overlap : Nat) : Nat := 10 * overlap / 13

/-- Python list slicing `l[a:b]` with integer (possibly negative or
out-of-range) bounds: negative indices count from the end, then both
bounds are clamped to `[0, len(l)]`. -/
def pySlice (l : List Str) (a b : Int) : List Str :=
  let n : Int := l.length
  let a' : Int := if a < 0 then max (n + a) 0 else min a n
  let b' : Int := if b < 0 then max (n + b) 0 else min b n
  (l.take b'.toNat).drop a'.toNat

/-- The `while start < len(words)` loop of `chunk_text`, with explicit
fuel.  `none` means the fuel ran out before the loop finished.  The
`chunks` accumulator receives `" ".join`-able word lists; joining is
applied afterwards in `chunk_textF`, which yields the same chunk strings
as joining inside the loop. -/
def chunkLoopF (words : List Str) (wpc wov : Nat) :
    Nat → Int → List (List Str) → Option (List (List Str))
  | 0, _, _ => none
  | fuel + 1, start, chunks =>
    if start < (words.length : Int) then
      let e : Int := start + (wpc : Int)
      let chunk_words := pySlice words start e
      let chunks' := if chunk_words.isEmpty then chunks else chunks ++ [chunk_words]
      let start' : Int := e - (wov : Int)
      if (words.length : Int) ≤ start' then some chunks'
      else chunkLoopF words wpc wov fuel start' chunks'
    else some chunks

/-- The word-level chunk sequence computed by `chunk_text(text, size,
overlap)` under the given fuel. -/
def chunk_wordsF (text : Str) (size overlap fuel : Nat) : Option (List (List Str)) :=
  chunkLoopF (splitWords text) (wordsPerChunk size) (wordsOverlap overlap) fuel 0 []

/-- `chunk_text(text, size, overlap)` under the given fuel: the chunk
strings are the word lists of the loop joined with single spaces. -/
def chunk_textF (text : Str) (size overlap fuel : Nat) : Option (List Str) :=
  (chunk_wordsF text size overlap fuel).map (List.map joinSpace)

/-- The Python `chunk_text` call terminates on these arguments: some
finite fuel makes the loop finish. -/
def ChunkTerminates (text : Str) (size overlap : Nat) : Prop :=
  ∃ fuel cs, chunk_textF text size overlap fuel = some cs

/-- Total version of `chunk_text` used by `index_file` (which always
calls it at the default configuration `CHUNK_SIZE`/`CHUNK_OVERLAP`,
where the step is positive and fuel `length + 1` provably suffices). -/
def chunk_text (text : Str) (size overlap : Nat) : List Str :=
  (chunk_textF text size overlap ((splitWords text).length + 1)).getD []

/-- Concatenation of chunk word lists with the first `wov` words (the
declared overlap region) removed from each. -/
def dropConcat (wov : Nat) (cs : List (List Str)) : List Str :=
  (cs.map (List.drop wov)).flatten

/-- "Concatenated with the declared overlap region removed between
consecutive chunks": the first chunk in full, every later chunk without
its first `wov` words. -/
def reconWords (wov : Nat) : List (List Str) → List Str
  | [] => []
  | c :: rest => c ++ dropConcat wov rest

/-- A row of the `chunks` table: `(file_path, file_hash, chunk_index,
content, embedding)`; the `embedding` column is nullable (`BLOB`). -/
structure Chunk where
  file_path : String
  file_hash : String
  chunk_index : Nat
  content : Str
  embedding : Option (List ℚ)
deriving DecidableEq

/-- A row of the `files` table: `(path, hash, indexed_at)`. -/
structure FileRec where
  path : String
  hash : String
  indexed_at : String
deriving DecidableEq

/-- The memory database: the two tables, rows in insertion order. -/
structure DB where
  chunks : List Chunk
  files : List FileRec
deriving DecidableEq

/-- A freshly initialised database. -/
def dbEmpty : DB := ⟨[], []⟩

/-- `SELECT hash FROM files WHERE path = ?` (path is the primary key). -/
def getFileHash (db : DB) (path : String) : Option String :=
  (db.files.find? (fun r => r.path == path)).map (·.hash)

/-- A document handed to `index_file`: its identity (the path relative
to the configured root) and, when both reads succeed, its MD5 content
hash together with its decoded text.  `data = none` models a file whose
bytes cannot be read (`read_bytes` raises, e.g. a permissions error). -/
structure FileEntry where
  relPath : String
  data : Option (String × Str)
deriving DecidableEq

/-- A trace of embedder invocations: the successive batches of texts
passed to `embed_texts`. -/
abbrev Trace := List (List Str)

/-- `index_file(conn, file_path)`.  Reads the file (its hash first, so
an unreadable file raises before anything else), skips when the stored
hash matches, skips when chunking yields nothing, and otherwise deletes
the document's chunk rows, inserts the new chunks with indices `0, 1,
...` paired with their embeddings (`zip`, as in the source), and
upserts the `files` row.  Returns the updated database, the `True/False`
"was (re)indexed" flag, and the trace of embedder calls made. -/
def index_file (embed : List Str → List (List ℚ)) (now : String)
    (db : DB) (f : FileEntry) : Except Unit (DB × Bool × Trace) :=
  match f.data with
  | none => .error ()
  | some (file_hash, content) =>
    if getFileHash db f.relPath = some file_hash then
      .ok (db, false, [])
    else
      let chunks := chunk_text content CHUNK_SIZE CHUNK_OVERLAP
      if chunks.isEmpty then
        .ok (db, false, [])
      else
        let embeddings := embed chunks
        let newChunks := ((chunks.zip embeddings).enum).map (fun p =>
          { file_path := f.relPath, file_hash := file_hash, chunk_index := p.1,
            content := p.2.1, embedding := some p.2.2 : Chunk })
        let db' : DB :=
          { chunks := db.chunks.filter (fun c => !(c.file_path == f.relPath)) ++ newChunks,
            files := db.files.filter (fun r => !(r.path == f.relPath)) ++
              [⟨f.relPath, file_hash, now⟩] }
        .ok (db', true, [chunks])

/-- The per-document loop of `do_index_all`, over an explicit list of
discovered documents: each is fed to `index_file`, counting and
recording the documents actually (re)indexed.  There is no exception
handling in the source, so an `index_file` error aborts the whole run. -/
def indexAllLoop (embed : List Str → List (List ℚ)) (now : String) :
    DB → Nat → List String → List FileEntry → Except Unit (DB × Nat × List String)
  | db, indexed, files_indexed, [] => .ok (db, indexed, files_indexed)
  | db, indexed, files_indexed, f :: rest =>
    match index_file embed now db f with
    | .error e => .error e
    | .ok (db', flag, _) =>
      indexAllLoop embed now db'
        (if flag then indexed + 1 else indexed)
        (if flag then files_indexed ++ [f.relPath] else files_indexed)
        rest

/-- The stable descending sort by score of
`results.sort(key=lambda x: x[2], reverse=True)`: Python's sort is
stable, and a stable sort with respect to a total transitive relation
is unique, so insertion sort with `score ≥ score` is extensionally the
same function. -/
def sortByScoreDesc (l : List (String × Str × ℚ)) : List (String × Str × ℚ) :=
  l.insertionSort (fun a b => b.2.2 ≤ a.2.2)

/-- `do_search(query, limit)`: embed the query (one embedder call,
recorded in the trace), score every chunk whose `embedding` column is
not `NULL` (`WHERE embedding IS NOT NULL`) against the query embedding,
sort descending by score and keep the first `limit`.  The similarity
function `sim` abstracts `cosine_similarity` on the decoded float
vectors. -/
def do_search (sim : List ℚ → List ℚ → ℚ) (embed : Str → List ℚ)
    (db : DB) (query : Str) (limit : Nat) :
    List (String × Str × ℚ) × Trace :=
  let query_embedding := embed query
  let results := db.chunks.filterMap (fun c =>
    c.embedding.map (fun e => (c.file_path, c.content, sim query_embedding e)))
  ((sortByScoreDesc results).take limit, [[query]])

/-- `do_search_hybrid(query, limit)`: vector search with `limit * 2`,
then for each candidate add `0.1` per distinct lowercase query term
(`set(query.lower().split())`, modelled as a deduplicated list) that
occurs as a substring of the lowercased content, re-sort descending by
the combined score and keep the first `limit`. -/
def do_search_hybrid (sim : List ℚ → List ℚ → ℚ) (embed : Str → List ℚ)
    (db : DB) (query : Str) (limit : Nat) :
    List (String × Str × ℚ) × Trace :=
  let vres := do_search sim embed db query (limit * 2)
  let query_terms := (splitWords (strLower query)).dedup
  let boosted_results := vres.1.map (fun r =>
    let content_lower := strLower r.2.1
    let keyword_matches := (query_terms.filter (fun t => containsSub t content_lower)).length
    let keyword_boost : ℚ := keyword_matches * (1 / 10)
    (r.1, r.2.1, r.2.2 + keyword_boost))
  ((sortByScoreDesc boosted_results).take limit, vres.2)

/-- `search_to_json`: the hybrid results as `{file, content, score}`
records (the same triples). -/
def search_to_json (sim : List ℚ → List ℚ → ℚ) (embed : Str → List ℚ)
    (db : DB) (query : Str) (limit : Nat) :
    List (String × Str × ℚ) × Trace :=
  let r := do_search_hybrid sim embed db query limit
  (r.1.map (fun x => (x.1, x.2.1, x.2.2)), r.2)

/-- The `/search` HTTP handler: `if not q.strip(): raise
HTTPException(400)` before any embedding work, otherwise
`search_to_json(q, limit)`.  `.error ()` is the 400 response. -/
def http_search (sim : List ℚ → List ℚ → ℚ) (embed : Str → List ℚ)
    (db : DB) (q : Str) (limit : Nat) :
    Except Unit (List (String × Str × ℚ)) × Trace :=
  if pyStrip q = [] then (.error (), [])
  else
    let r := search_to_json sim embed db q limit
    (.ok r.1, r.2)

/-- Modelled from the spec (§4.4 Hybrid Scorer), word for word: "take
the top `2 × limit` vector-similarity results", "tokenize the query
into a set of lowercase terms", "for each candidate count how many
distinct query terms appear as a substring of the candidate's
(lowercased) content", "Combined score = vector similarity + (matching
term count × fixed boost weight, default 0.1 per term)", "Re-sort the
boosted candidate set descending by combined score; truncate to
`limit`" with a stable sort. -/
def hybridScorerSpec (sim : List ℚ → List ℚ → ℚ) (embed : Str → List ℚ)
    (db : DB) (query : Str) (limit : Nat) : List (String × Str × ℚ) :=
  let candidates := (do_search sim embed db query (2 * limit)).1
  let terms := (splitWords (strLower query)).dedup
  let boosted := candidates.map (fun r =>
    let matching := (terms.filter (fun t => containsSub t (strLower r.2.1))).length
    (r.1, r.2.1, r.2.2 + matching * (1 / 10 : ℚ)))
  (sortByScoreDesc boosted).take limit

/-! ## Helper lemmas -/

/-- When `words_per_chunk = words_overlap`, the new `start` computed by
the loop body from `start = 0` is `0` again, so the loop never makes
progress on a non-empty word list: no amount of fuel finishes it. -/
lemma chunkLoopF_step_zero (words : List Str) (w : Nat) (hw : words ≠ []) :
    ∀ fuel chunks, chunkLoopF words w w fuel 0 chunks = none := by
  intro fuel
  induction fuel with
  | zero => intro chunks; rfl
  | succ f ih =>
    intro chunks
    have hpos : 0 < words.length := List.length_pos.mpr hw
    have h1 : (0 : Int) < (words.length : Int) := by exact_mod_cast hpos
    have h2 : ¬ ((words.length : Int) ≤ 0 + (w : Int) - (w : Int)) := by omega
    simp only [chunkLoopF, if_pos h1, if_neg h2]
    have h3 : (0 : Int) + (w : Int) - (w : Int) = 0 := by ring
    rw [h3]
    exact ih _

/-- `str.split()` of a whitespace-only (or empty) text is empty. -/
lemma splitWordsAux_all_ws (s : List Char) (h : ∀ c ∈ s, c.isWhitespace) :
    splitWordsAux s [] = [] := by
  induction s with
  | nil => rfl
  | cons c rest ih =>
    have hc : c.isWhitespace = true := h c (by simp)
    simp only [splitWordsAux, hc, if_pos, List.isEmpty_nil, if_true]
    exact ih (fun d hd => h d (by simp [hd]))

/-- On whitespace-only text, `chunk_text` produces no chunks. -/
lemma chunk_text_all_ws (t : Str) (h : ∀ c ∈ t, c.isWhitespace)
    (size overlap : Nat) : chunk_text t size overlap = [] := by
  have hsplit : splitWords t = [] := splitWordsAux_all_ws t h
  simp [chunk_text, chunk_textF, chunk_wordsF, hsplit, chunkLoopF]

/-- `index_file` on a readable document never raises. -/
lemma index_file_ok (embed : List Str → List (List ℚ)) (now : String)
    (db : DB) (f : FileEntry) (h : f.data ≠ none) :
    ∃ r, index_file embed now db f = .ok r := by
  obtain ⟨⟨fh, t⟩, hd⟩ := Option.ne_none_iff_exists'.mp h
  unfold index_file
  rw [hd]
  dsimp only
  by_cases h1 : getFileHash db f.relPath = some fh
  · exact ⟨_, by rw [if_pos h1]⟩
  · rw [if_neg h1]
    by_cases h2 : (chunk_text t CHUNK_SIZE CHUNK_OVERLAP).isEmpty
    · exact ⟨_, by rw [if_pos h2]⟩
    · exact ⟨_, by rw [if_neg h2]⟩

/-! ## Concrete instances used by witnesses and counterexamples -/

/-- A one-dimensional embedder stub (batched interface). -/
def embedOne : List Str → List (List ℚ) := fun texts => texts.map (fun _ => [1])

/-- A one-dimensional embedder stub (single-query interface). -/
def embedQ : Str → List ℚ := fun _ => [1]

/-- A constant similarity stub. -/
def simZero : List ℚ → List ℚ → ℚ := fun _ _ => 0

/-- A document whose bytes cannot be read. -/
def fileBad : FileEntry := ⟨"bad.md", none⟩

/-- A small readable document. -/
def fileGood : FileEntry := ⟨"good.md", some ("h1", ['h', 'i'])⟩

/-- A store already holding one chunk and one file record for
`good.md` at hash `h1`. -/
def dbPrior : DB :=
  ⟨[⟨"good.md", "h0", 0, ['o', 'l', 'd'], some [1]⟩], [⟨"good.md", "h1", "t0"⟩]⟩

/-! ## Claim theorems -/

/-- C3: the claim says `chunk_text` terminates for every configuration,
including `overlap ≥ size`.  It does not: at `size = overlap = 400`
(so `words_per_chunk = words_overlap = 307`) on any non-empty text the
loop recomputes `start = 0` forever, appending the same chunk — the
code loops (and allocates) without end. -/
theorem chunk_text_diverges_overlap_eq_size : ¬ ChunkTerminates ['a'] 400 400 := by
  rintro ⟨fuel, cs, hcs⟩
  have h1 : wordsPerChunk 400 = 307 := rfl
  have h2 : wordsOverlap 400 = 307 := rfl
  have hsplit : splitWords ['a'] = [['a']] := rfl
  have hloop : chunkLoopF (splitWords ['a']) (wordsPerChunk 400) (wordsOverlap 400)
      fuel 0 [] = none := by
    rw [hsplit, h1, h2]
    exact chunkLoopF_step_zero [['a']] 307 (by simp) fuel []
  simp [chunk_textF, chunk_wordsF, hloop] at hcs

/-- C4: when the stored hash for the document's identity equals its
current content hash, `index_file` returns `False` without touching the
store and without a single embedder call. -/
theorem index_file_skip_unchanged (embed : List Str → List (List ℚ))
    (now : String) (db : DB) (f : FileEntry) (fh : String) (t : Str)
    (hdata : f.data = some (fh, t))
    (hhash : getFileHash db f.relPath = some fh) :
    index_file embed now db f = .ok (db, false, []) := by
  unfold index_file
  rw [hdata]
  dsimp only
  rw [if_pos hhash]

/-- Witness for C4 at a concrete store: the prior chunk rows and file
record survive unchanged and no embedding happens. -/
theorem index_file_skip_unchanged_witness :
    index_file embedOne "t1" dbPrior ⟨"good.md", some ("h1", ['n', 'e', 'w'])⟩ =
      .ok (dbPrior, false, []) :=
  index_file_skip_unchanged embedOne "t1" dbPrior _ "h1" ['n', 'e', 'w'] rfl (by decide)

/-- C9: a document whose text is empty or whitespace-only chunks to
nothing, and `index_file` then skips it entirely: reported not indexed,
nothing embedded, the store — including any previously stored chunks
for that identity — left untouched. -/
theorem index_file_skips_whitespace_doc (embed : List Str → List (List ℚ))
    (now : String) (db : DB) (f : FileEntry) (fh : String) (t : Str)
    (hdata : f.data = some (fh, t)) (hws : ∀ c ∈ t, c.isWhitespace) :
    index_file embed now db f = .ok (db, false, []) := by
  unfold index_file
  rw [hdata]
  dsimp only
  by_cases h1 : getFileHash db f.relPath = some fh
  · rw [if_pos h1]
  · rw [if_neg h1]
    have h2 : chunk_text t CHUNK_SIZE CHUNK_OVERLAP = [] := chunk_text_all_ws t hws _ _
    simp [h2]

/-- Witness for C9: a whitespace-only document over a store that holds
prior chunks for another identity; nothing is cleared. -/
theorem index_file_skips_whitespace_doc_witness :
    index_file embedOne "t1" dbPrior ⟨"ws.md", some ("h2", [' ', '\n', ' '])⟩ =
      .ok (dbPrior, false, []) :=
  index_file_skips_whitespace_doc embedOne "t1" dbPrior _ "h2" [' ', '\n', ' ']
    rfl (by decide)

/-- C8 (counterexample): the core search operation does NOT validate
the query: `do_search` on the empty query embeds it anyway — the trace
records exactly one embedder call whose batch is the empty string. -/
theorem do_search_embeds_empty_query :
    (do_search simZero embedQ dbEmpty [] 5).2 = [[([] : Str)]] := rfl

/-- C8 (amended): only the HTTP front-end rejects empty or
whitespace-only queries, with a 400 error raised before any embedder
call (empty trace). -/
theorem http_search_rejects_blank (sim : List ℚ → List ℚ → ℚ)
    (embed : Str → List ℚ) (db : DB) (q : Str) (limit : Nat)
    (hq : pyStrip q = []) :
    http_search sim embed db q limit = (.error (), []) := by
  simp [http_search, hq]

/-- Witness for the amended C8 at a whitespace-only query. -/
theorem http_search_rejects_blank_witness :
    http_search simZero embedQ dbEmpty [' ', '\t'] 5 = (.error (), []) :=
  http_search_rejects_blank simZero embedQ dbEmpty [' ', '\t'] 5 (by decide)

/-- C7 (counterexample): `do_index_all` has no exception handling, so
one unreadable document aborts the whole run — here the readable
`good.md`, which a run on its own would index (second conjunct), is
never reached and no aggregate count is returned. -/
theorem indexAllLoop_unreadable_aborts_run :
    indexAllLoop embedOne "t0" dbEmpty 0 [] [fileBad, fileGood] = .error () ∧
    ∃ db', indexAllLoop embedOne "t0" dbEmpty 0 [] [fileGood] =
      .ok (db', 1, ["good.md"]) := by
  refine ⟨rfl, ⟨_, rfl⟩⟩

/-- C7 (amended): a document that cannot be read makes the whole
reindex run raise: every document before it is processed, the error
propagates at the unreadable one, and no aggregate result is returned
for the run. -/
theorem indexAllLoop_error_at_first_unreadable
    (embed : List Str → List (List ℚ)) (now : String)
    (pre post : List FileEntry) (f : FileEntry)
    (db : DB) (n : Nat) (fs : List String)
    (hpre : ∀ g ∈ pre, g.data ≠ none) (hf : f.data = none) :
    indexAllLoop embed now db n fs (pre ++ f :: post) = .error () := by
  induction pre generalizing db n fs with
  | nil =>
    have herr : index_file embed now db f = .error () := by
      unfold index_file; rw [hf]
    simp only [List.nil_append, indexAllLoop, herr]
  | cons g rest ih =>
    obtain ⟨⟨db', flag, tr⟩, hok⟩ := index_file_ok embed now db g (hpre g (by simp))
    simp only [List.cons_append, indexAllLoop, hok]
    exact ih _ _ _ (fun x hx => hpre x (by simp [hx]))

/-- Witness for the amended C7: one readable document before the
unreadable one, one after; the run still raises. -/
theorem indexAllLoop_error_at_first_unreadable_witness :
    indexAllLoop embedOne "t0" dbEmpty 0 []
      ([fileGood] ++ fileBad :: [⟨"after.md", some ("h3", ['z'])⟩]) = .error () :=
  indexAllLoop_error_at_first_unreadable embedOne "t0" [fileGood]
    [⟨"after.md", some ("h3", ['z'])⟩] fileBad dbEmpty 0 []
    (by intro g hg; simp at hg; subst hg; simp [fileGood]) rfl

/-- C1: when the content hash differs from the stored one and the text
chunks to a non-empty sequence, `index_file` reports success and the
chunk rows stored for that identity afterwards are exactly the freshly
inserted ones: their `chunk_index` values are `0..k-1` for the new
chunk count `k`, and every one of them carries the new content hash —
nothing of the previous version survives.  The embedder is assumed to
return one vector per chunk (its interface contract). -/
theorem index_file_replaces_chunk_set (embed : List Str → List (List ℚ))
    (now : String) (db : DB) (f : FileEntry) (fh : String) (t : Str)
    (hdata : f.data = some (fh, t))
    (hhash : getFileHash db f.relPath ≠ some fh)
    (hchunks : chunk_text t CHUNK_SIZE CHUNK_OVERLAP ≠ [])
    (hembed : (embed (chunk_text t CHUNK_SIZE CHUNK_OVERLAP)).length =
      (chunk_text t CHUNK_SIZE CHUNK_OVERLAP).length) :
    ∃ db' tr, index_file embed now db f = .ok (db', true, tr) ∧
      ((db'.chunks.filter (fun c => c.file_path == f.relPath)).map
          Chunk.chunk_index) =
        List.range (chunk_text t CHUNK_SIZE CHUNK_OVERLAP).length ∧
      ∀ c ∈ db'.chunks.filter (fun c => c.file_path == f.relPath),
        c.file_hash = fh := by
  have hne : (chunk_text t CHUNK_SIZE CHUNK_OVERLAP).isEmpty = false := by
    simpa [List.isEmpty_iff] using hchunks
  refine ⟨⟨db.chunks.filter (fun c => !(c.file_path == f.relPath)) ++
      ((chunk_text t CHUNK_SIZE CHUNK_OVERLAP).zip
        (embed (chunk_text t CHUNK_SIZE CHUNK_OVERLAP))).enum.map (fun p =>
          ({ file_path := f.relPath, file_hash := fh, chunk_index := p.1,
             content := p.2.1, embedding := some p.2.2 : Chunk })),
      db.files.filter (fun r => !(r.path == f.relPath)) ++ [⟨f.relPath, fh, now⟩]⟩,
    [chunk_text t CHUNK_SIZE CHUNK_OVERLAP], ?_, ?_, ?_⟩
  · unfold index_file
    rw [hdata]
    dsimp only
    rw [if_neg hhash, if_neg (by simp [hne])]
  · dsimp only
    rw [List.filter_append]
    have hold : (db.chunks.filter (fun c => !(c.file_path == f.relPath))).filter
        (fun c => c.file_path == f.relPath) = [] := by
      rw [List.filter_filter]
      refine List.filter_eq_nil_iff.mpr ?_
      intro a _
      by_cases hp : a.file_path == f.relPath <;> simp [hp]
    have hnew : ∀ (l : List (Str × List ℚ)),
        (l.enum.map (fun p =>
          ({ file_path := f.relPath, file_hash := fh, chunk_index := p.1,
             content := p.2.1, embedding := some p.2.2 : Chunk }))).filter
            (fun c => c.file_path == f.relPath) =
        l.enum.map (fun p =>
          ({ file_path := f.relPath, file_hash := fh, chunk_index := p.1,
             content := p.2.1, embedding := some p.2.2 : Chunk })) := by
      intro l
      refine List.filter_eq_self.mpr ?_
      intro a ha
      obtain ⟨p, _, rfl⟩ := List.mem_map.mp ha
      simp
    rw [hold, hnew, List.nil_append, List.map_map]
    have hcomp : (Chunk.chunk_index ∘ fun p : ℕ × Str × List ℚ =>
        ({ file_path := f.relPath, file_hash := fh, chunk_index := p.1,
           content := p.2.1, embedding := some p.2.2 : Chunk })) = Prod.fst := rfl
    rw [hcomp, List.enum_map_fst, List.length_zip, hembed, min_self]
  · dsimp only
    intro c hc
    rw [List.filter_append] at hc
    rcases List.mem_append.mp hc with h | h
    · exact absurd (List.of_mem_filter (List.mem_of_mem_filter h))
        (by simpa using (List.of_mem_filter h))
    · obtain ⟨p, _, rfl⟩ := List.mem_map.mp (List.mem_of_mem_filter h)
      rfl

/-- Witness for C1: a changed document over a store with a prior chunk
for the same identity. -/
theorem index_file_replaces_chunk_set_witness :
    ∃ db' tr,
      index_file embedOne "t2" dbPrior
          ⟨"good.md", some ("h2", ['n', 'e', 'w', ' ', 'd', 'o', 'c'])⟩ =
        .ok (db', true, tr) ∧
      ((db'.chunks.filter (fun c => c.file_path == "good.md")).map
          Chunk.chunk_index) =
        List.range
          (chunk_text ['n', 'e', 'w', ' ', 'd', 'o', 'c'] CHUNK_SIZE CHUNK_OVERLAP).length ∧
      ∀ c ∈ db'.chunks.filter (fun c => c.file_path == "good.md"),
        c.file_hash = "h2" :=
  index_file_replaces_chunk_set embedOne "t2" dbPrior
    ⟨"good.md", some ("h2", ['n', 'e', 'w', ' ', 'd', 'o', 'c'])⟩ "h2"
    ['n', 'e', 'w', ' ', 'd', 'o', 'c'] rfl (by decide) (by decide) (by decide)

/-- Every `do_search` result is built from a stored chunk whose
`embedding` column is non-null; its path and content are that chunk's. -/
lemma do_search_mem (sim : List ℚ → List ℚ → ℚ) (embed : Str → List ℚ)
    (db : DB) (q : Str) (limit : Nat) (r : String × Str × ℚ)
    (hr : r ∈ (do_search sim embed db q limit).1) :
    ∃ c ∈ db.chunks, c.embedding.isSome ∧ r.1 = c.file_path ∧ r.2.1 = c.content := by
  unfold do_search at hr
  dsimp only at hr
  have h1 : r ∈ sortByScoreDesc (db.chunks.filterMap (fun c =>
      c.embedding.map (fun e => (c.file_path, c.content, sim (embed q) e)))) :=
    List.take_subset _ _ hr
  have h2 : r ∈ db.chunks.filterMap (fun c =>
      c.embedding.map (fun e => (c.file_path, c.content, sim (embed q) e))) :=
    (List.perm_insertionSort _ _).subset h1
  obtain ⟨c, hc, hceq⟩ := List.mem_filterMap.mp h2
  obtain ⟨e, he, hre⟩ := Option.map_eq_some'.mp hceq
  exact ⟨c, hc, by simp [he], by rw [← hre], by rw [← hre]⟩

/-- C10: every result returned by `do_search` — and hence by
`do_search_hybrid`, which only re-scores `do_search` candidates —
originates from a stored chunk with a non-null embedding: a chunk whose
embedding is absent is never scored and never appears, for any query
and limit. -/
theorem search_results_from_embedded_chunks (sim : List ℚ → List ℚ → ℚ)
    (embed : Str → List ℚ) (db : DB) (q : Str) (limit : Nat) :
    (∀ r ∈ (do_search sim embed db q limit).1, ∃ c ∈ db.chunks,
        c.embedding.isSome ∧ r.1 = c.file_path ∧ r.2.1 = c.content) ∧
    (∀ r ∈ (do_search_hybrid sim embed db q limit).1, ∃ c ∈ db.chunks,
        c.embedding.isSome ∧ r.1 = c.file_path ∧ r.2.1 = c.content) := by
  refine ⟨fun r hr => do_search_mem sim embed db q limit r hr, fun r hr => ?_⟩
  unfold do_search_hybrid at hr
  dsimp only at hr
  have h1 := List.take_subset _ _ hr
  have h2 := (List.perm_insertionSort _ _).subset h1
  obtain ⟨r', hr', hre⟩ := List.mem_map.mp h2
  obtain ⟨c, hc, hsome, hp, hct⟩ := do_search_mem sim embed db q (limit * 2) r' hr'
  refine ⟨c, hc, hsome, ?_, ?_⟩
  · rw [← hre]; exact hp
  · rw [← hre]; exact hct

/-- Witness for C10: a store with one embedded chunk; the single search
result traces back to it. -/
theorem search_results_from_embedded_chunks_witness :
    ∃ c ∈ (DB.mk [⟨"f.md", "h", 0, ['x'], some [1]⟩] []).chunks,
      c.embedding.isSome ∧ "f.md" = c.file_path ∧ ['x'] = c.content :=
  (search_results_from_embedded_chunks simZero embedQ
      (DB.mk [⟨"f.md", "h", 0, ['x'], some [1]⟩] []) ['y'] 1).1
    ("f.md", ['x'], 0) (by decide)

/-- C5: `do_search_hybrid` computes exactly the spec's hybrid scoring
algorithm — top `2 × limit` vector candidates, `+0.1` per distinct
lowercase query term occurring as a substring of the lowercased
content, stable descending re-sort — and returns at most `limit`
results in that order. -/
theorem hybrid_scorer_matches_spec (sim : List ℚ → List ℚ → ℚ)
    (embed : Str → List ℚ) (db : DB) (q : Str) (limit : Nat)
    (h : 1 ≤ limit) :
    (do_search_hybrid sim embed db q limit).1 = hybridScorerSpec sim embed db q limit ∧
    ((do_search_hybrid sim embed db q limit).1).length ≤ limit := by
  constructor
  · unfold do_search_hybrid hybridScorerSpec
    dsimp only
    rw [Nat.mul_comm limit 2]
  · unfold do_search_hybrid
    dsimp only
    exact List.length_take_le _ _

/-- Witness for C5 at a concrete store and query. -/
theorem hybrid_scorer_matches_spec_witness :
    (do_search_hybrid simZero embedQ dbPrior ['o', 'l', 'd'] 1).1 =
      hybridScorerSpec simZero embedQ dbPrior ['o', 'l', 'd'] 1 ∧
    ((do_search_hybrid simZero embedQ dbPrior ['o', 'l', 'd'] 1).1).length ≤ 1 :=
  hybrid_scorer_matches_spec simZero embedQ dbPrior ['o', 'l', 'd'] 1 (by decide)

/-! ## Chunk reconstruction (C2) -/

/-- `pySlice` with nonnegative bounds `s` and `s + w` is drop-then-take. -/
lemma pySlice_nat (l : List Str) (s w : Nat) :
    pySlice l (s : Int) ((s : Int) + (w : Int)) = (l.drop s).take w := by
  simp only [pySlice]
  rw [if_neg (by omega : ¬ ((s : Int) < 0)),
    if_neg (by omega : ¬ ((s : Int) + (w : Int) < 0))]
  have ha : (min (s : Int) (l.length : Int)).toNat = min s l.length := by omega
  have hb : (min ((s : Int) + (w : Int)) (l.length : Int)).toNat =
      min (s + w) l.length := by omega
  rw [ha, hb, List.drop_take]
  rcases Nat.le_total s l.length with hs | hs
  · rw [min_eq_left hs]
    rcases Nat.le_total (s + w) l.length with hsw | hsw
    · rw [min_eq_left hsw]
      congr 1
      omega
    · rw [min_eq_right hsw, List.take_of_length_le (by rw [List.length_drop]),
        List.take_of_length_le (by rw [List.length_drop]; omega)]
  · rw [min_eq_right hs, min_eq_right (by omega : l.length ≤ s + w),
      List.drop_eq_nil_of_le hs, Nat.sub_self, List.take_zero, List.take_nil]

/-- Unfolding lemma: removing the declared overlap distributes over the
head chunk. -/
lemma dropConcat_cons (wov : Nat) (c : List Str) (cs : List (List Str)) :
    dropConcat wov (c :: cs) = c.drop wov ++ dropConcat wov cs := by
  simp [dropConcat]

/-- The loop's accumulator only ever receives appends: running it from
`acc` is running it from `[]` and prefixing `acc`. -/
lemma chunkLoopF_acc (words : List Str) (wpc wov : Nat) :
    ∀ fuel (start : Int) (acc : List (List Str)),
      chunkLoopF words wpc wov fuel start acc =
        (chunkLoopF words wpc wov fuel start []).map (acc ++ ·) := by
  intro fuel
  induction fuel with
  | zero => intro start acc; rfl
  | succ f ih =>
    intro start acc
    by_cases h1 : start < (words.length : Int)
    · by_cases h3 : (words.length : Int) ≤ start + (wpc : Int) - (wov : Int)
      · by_cases h2 : (pySlice words start (start + (wpc : Int))).isEmpty <;>
          simp [chunkLoopF, h1, h2, h3]
      · by_cases h2 : (pySlice words start (start + (wpc : Int))).isEmpty
        · simp only [chunkLoopF, h1, if_true, h2, if_pos, h3, if_false, if_neg,
            not_false_iff]
          exact ih _ _
        · simp only [chunkLoopF, h1, if_true, h3, if_false]
          rw [if_neg h2, if_neg h2,
            ih _ (acc ++ [pySlice words start (start + (wpc : Int))]),
            ih _ ([] ++ [pySlice words start (start + (wpc : Int))])]
          rcases chunkLoopF words wpc wov f (start + (wpc : Int) - (wov : Int)) [] with
            _ | cs <;> simp
    · simp [chunkLoopF, h1]

/-- Main chunking lemma: with a positive step `d = words_per_chunk −
words_overlap`, the loop started at word index `s < n` terminates
within `n − s` fuel, produces a non-empty chunk list, and that list
reconstructs exactly the words from position `s` on — both in the
"all chunks minus overlap" form and in the "first chunk in full, later
chunks minus overlap" form. -/
lemma chunkLoopF_run (words : List Str) (wov d : Nat) (hd : 0 < d) :
    ∀ fuel s : Nat, s < words.length → words.length - s ≤ fuel →
    ∃ cs, chunkLoopF words (wov + d) wov fuel (s : Int) [] = some cs ∧
      cs ≠ [] ∧
      dropConcat wov cs = words.drop (s + wov) ∧
      reconWords wov cs = words.drop s := by
  intro fuel
  induction fuel with
  | zero => intro s h1 h2; omega
  | succ f ih =>
    intro s hs hfuel
    have h1 : (s : Int) < (words.length : Int) := by exact_mod_cast hs
    have hslice : pySlice words (s : Int) ((s : Int) + ((wov + d : Nat) : Int)) =
        (words.drop s).take (wov + d) := pySlice_nat words s (wov + d)
    have hcw : ((words.drop s).take (wov + d)).isEmpty = false := by
      rw [List.isEmpty_eq_false]
      intro hnil
      have := congrArg List.length hnil
      rw [List.length_take, List.length_drop] at this
      simp at this
      omega
    by_cases hstop : words.length ≤ s + d
    · have h3 : (words.length : Int) ≤ (s : Int) + ((wov + d : Nat) : Int) - (wov : Int) := by
        push_cast
        omega
      have hcwfull : (words.drop s).take (wov + d) = words.drop s :=
        List.take_of_length_le (by rw [List.length_drop]; omega)
      refine ⟨[(words.drop s).take (wov + d)], ?_, by simp, ?_, ?_⟩
      · simp only [chunkLoopF]
        rw [if_pos h1, hslice, if_pos h3, hcw]
        simp
      · rw [dropConcat_cons]
        simp only [dropConcat, List.map_nil, List.flatten_nil, List.append_nil]
        rw [hcwfull, List.drop_drop]
      · simp only [reconWords, dropConcat, List.map_nil, List.flatten_nil,
          List.append_nil]
        exact hcwfull
    · have h3 : ¬ ((words.length : Int) ≤ (s : Int) + ((wov + d : Nat) : Int) - (wov : Int)) := by
        push_cast
        omega
      have hstep : (s : Int) + ((wov + d : Nat) : Int) - (wov : Int) = ((s + d : Nat) : Int) := by
        push_cast
        ring
      obtain ⟨cs', hcs', hne', hdc', hrec'⟩ := ih (s + d) (by omega) (by omega)
      refine ⟨(words.drop s).take (wov + d) :: cs', ?_, by simp, ?_, ?_⟩
      · simp only [chunkLoopF]
        rw [if_pos h1, hslice, if_neg h3, hcw]
        simp only [Bool.false_eq_true, if_false, List.nil_append]
        rw [hstep, chunkLoopF_acc words (wov + d) wov f _ [(words.drop s).take (wov + d)],
          hcs']
        rfl
      · rw [dropConcat_cons, hdc']
        have e1 : ((words.drop s).take (wov + d)).drop wov =
            (words.drop (s + wov)).take d := by
          rw [List.drop_take, List.drop_drop, Nat.add_sub_cancel_left]
        have e2 : words.drop (s + d + wov) = (words.drop (s + wov)).drop d := by
          rw [List.drop_drop]
          congr 1
          omega
        rw [e1, e2, List.take_append_drop]
      · simp only [reconWords]
        rw [hdc']
        have e3 : words.drop (s + d + wov) = (words.drop s).drop (wov + d) := by
          rw [List.drop_drop]
          congr 1
          omega
        rw [e3, List.take_append_drop]

/-- C2 (amended): whenever the word-level step is positive — i.e.
`int(size/1.3) > int(overlap/1.3)`, which `overlap < size` does NOT
always guarantee — `chunk_text` terminates (fuel `#words + 1` is
enough) and its chunk sequence, concatenated with the declared overlap
region (the first `words_overlap` words of every chunk after the
first) removed, reconstructs exactly the text's whitespace-split word
sequence: no word dropped, none duplicated beyond the declared
overlap. -/
theorem chunk_text_reconstructs (t : Str) (size overlap : Nat)
    (h : wordsOverlap overlap < wordsPerChunk size) :
    ∃ css, chunk_wordsF t size overlap ((splitWords t).length + 1) = some css ∧
      chunk_textF t size overlap ((splitWords t).length + 1) =
        some (css.map joinSpace) ∧
      reconWords (wordsOverlap overlap) css = splitWords t := by
  rcases Nat.eq_zero_or_pos (splitWords t).length with h0 | hpos
  · have hnil : splitWords t = [] := List.length_eq_zero.mp h0
    refine ⟨[], ?_, ?_, by simp [reconWords, hnil]⟩
    · simp only [chunk_wordsF, hnil]
      rfl
    · simp only [chunk_textF, chunk_wordsF, hnil]
      rfl
  · obtain ⟨cs, hcs, hne, hdc, hrec⟩ :=
      chunkLoopF_run (splitWords t) (wordsOverlap overlap)
        (wordsPerChunk size - wordsOverlap overlap) (by omega)
        ((splitWords t).length + 1) 0 hpos (by omega)
    rw [show wordsOverlap overlap + (wordsPerChunk size - wordsOverlap overlap) =
        wordsPerChunk size by omega] at hcs
    refine ⟨cs, ?_, ?_, ?_⟩
    · exact hcs
    · simp only [chunk_textF, chunk_wordsF]
      rw [show ((0 : Nat) : Int) = (0 : Int) from rfl] at hcs
      rw [hcs]
      rfl
    · rw [hrec, List.drop_zero]

/-- C2 (counterexample): at `size = 9`, `overlap = 8` — admitted by the
claim since `overlap < size` — the conversions give `words_per_chunk =
words_overlap = 6`, the window step is zero, and `chunk_text` never
returns on the one-word text `"a"`: no chunk sequence exists at all,
let alone a reconstructing one. -/
theorem chunk_text_reconstruct_cex :
    ¬ ∃ fuel cs css, chunk_textF ['a'] 9 8 fuel = some cs ∧
        cs = css.map joinSpace ∧
        reconWords (wordsOverlap 8) css = splitWords ['a'] := by
  rintro ⟨fuel, cs, css, hcs, -, -⟩
  have hloop : chunkLoopF (splitWords ['a']) (wordsPerChunk 9) (wordsOverlap 8)
      fuel 0 [] = none := by
    rw [show splitWords ['a'] = [['a']] from rfl,
      show wordsPerChunk 9 = 6 from rfl, show wordsOverlap 8 = 6 from rfl]
    exact chunkLoopF_step_zero [['a']] 6 (by simp) fuel []
  simp [chunk_textF, chunk_wordsF, hloop] at hcs

/-- Witness for the amended C2 on the two-word text `"a b"` with
`size = 2`, `overlap = 0`. -/
theorem chunk_text_reconstructs_witness :
    ∃ css, chunk_wordsF ['a', ' ', 'b'] 2 0
        ((splitWords ['a', ' ', 'b']).length + 1) = some css ∧
      chunk_textF ['a', ' ', 'b'] 2 0 ((splitWords ['a', ' ', 'b']).length + 1) =
        some (css.map joinSpace) ∧
      reconWords (wordsOverlap 0) css = splitWords ['a', ' ', 'b'] :=
  chunk_text_reconstructs ['a', ' ', 'b'] 2 0 (by decide)
